import Mathlib

/-!
# Verification of the itinerary optimizer core

Shallow embedding of `netlify/functions/optimizer.py` (class `ItineraryOptimizer`).

Numeric model: Python floats are embedded as `PF`, an exact rational extended
with `+inf`, `-inf` and `nan`, with IEEE-754 special-value propagation for the
arithmetic the code performs (rounding is immaterial to every property treated
here; the special values are not, since missing record fields default to
`float('inf')`).  Candidate records (Python dicts) become structures with
`Option ℚ` fields; `dict.get(k, default)` becomes an explicit defaulting.
Dates are embedded as integers (day ordinals); `datetime` arithmetic on whole
days is integer arithmetic under this abstraction.
-/

/-- Python float values relevant to the optimizer: exact finite rationals plus
the IEEE special values produced by the `float('inf')` defaults. -/
inductive PF where
  | nan  : PF
  | inf  : PF
  | ninf : PF
  | fin  : ℚ → PF
deriving DecidableEq, Repr

namespace PF

/-- IEEE negation. -/
def neg : PF → PF
  | nan => nan
  | inf => ninf
  | ninf => inf
  | fin q => fin (-q)

/-- IEEE addition (exact on finite operands). -/
def add : PF → PF → PF
  | nan, _ => nan
  | _, nan => nan
  | inf, ninf => nan
  | ninf, inf => nan
  | inf, _ => inf
  | _, inf => inf
  | ninf, _ => ninf
  | _, ninf => ninf
  | fin a, fin b => fin (a + b)

/-- IEEE subtraction. -/
def sub (a b : PF) : PF := add a (neg b)

/-- IEEE multiplication (exact on finite operands). -/
def mul : PF → PF → PF
  | nan, _ => nan
  | _, nan => nan
  | inf, inf => inf
  | inf, ninf => ninf
  | ninf, inf => ninf
  | ninf, ninf => inf
  | inf, fin q => if q = 0 then nan else if 0 < q then inf else ninf
  | fin q, inf => if q = 0 then nan else if 0 < q then inf else ninf
  | ninf, fin q => if q = 0 then nan else if 0 < q then ninf else inf
  | fin q, ninf => if q = 0 then nan else if 0 < q then ninf else inf
  | fin a, fin b => fin (a * b)

/-- IEEE division (exact on finite operands; signed zeros are collapsed to `0`,
which is observationally equal for every computation the optimizer performs). -/
def div : PF → PF → PF
  | nan, _ => nan
  | _, nan => nan
  | inf, inf => nan
  | inf, ninf => nan
  | ninf, inf => nan
  | ninf, ninf => nan
  | inf, fin q => if 0 ≤ q then inf else ninf
  | ninf, fin q => if 0 ≤ q then ninf else inf
  | fin _, inf => fin 0
  | fin _, ninf => fin 0
  | fin a, fin b =>
      if b = 0 then (if a = 0 then nan else if 0 < a then inf else ninf)
      else fin (a / b)

/-- IEEE equality test (`==` in Python / numpy): `nan` compares unequal to
everything, including itself. -/
def beq : PF → PF → Bool
  | nan, _ => false
  | _, nan => false
  | inf, inf => true
  | ninf, ninf => true
  | fin a, fin b => a == b
  | _, _ => false

/-- IEEE strict less-than: any comparison involving `nan` is false. -/
def lt : PF → PF → Bool
  | nan, _ => false
  | _, nan => false
  | inf, _ => false
  | _, inf => true
  | ninf, ninf => false
  | ninf, _ => true
  | _, ninf => false
  | fin a, fin b => a < b

/-- IEEE less-or-equal: any comparison involving `nan` is false. -/
def le : PF → PF → Bool
  | nan, _ => false
  | _, nan => false
  | ninf, _ => true
  | _, ninf => false
  | _, inf => true
  | inf, _ => false
  | fin a, fin b => a ≤ b

end PF

/-- Embedding of `d.get(key, default)` on an optional rational field. -/
def pfGet (o : Option ℚ) (d : PF) : PF :=
  match o with
  | some q => PF.fin q
  | none => d

/-- Embedding of `numpy.maximum` on two elements: propagates `nan`, otherwise the larger. -/
def fmax (a b : PF) : PF :=
  if a = PF.nan ∨ b = PF.nan then PF.nan else if PF.lt a b then b else a

/-- Embedding of `numpy.minimum` on two elements: propagates `nan`, otherwise the smaller. -/
def fmin (a b : PF) : PF :=
  if a = PF.nan ∨ b = PF.nan then PF.nan else if PF.lt b a then b else a

/-- Embedding of `np.max` of an array: left reduction by `numpy.maximum` from the first
element (the code only applies it to non-empty arrays; the `[]` value is a
dummy). -/
def npMax : List PF → PF
  | [] => PF.fin 0
  | x :: xs => xs.foldl fmax x

/-- Embedding of `np.min` of an array (same conventions as `npMax`). -/
def npMin : List PF → PF
  | [] => PF.fin 0
  | x :: xs => xs.foldl fmin x

/-- Inner loop of `np.argmax`, mirroring numpy's C kernel: scan left to right
keeping the current best index/value, update on a strictly larger element, and
stop at the first `nan` (which numpy treats as maximal, consistent with
`np.max` propagating `nan`). -/
def argmaxGo : Nat → Nat → PF → List PF → Nat
  | _, bi, _, [] => bi
  | i, bi, bv, x :: xs =>
      if x = PF.nan then i
      else if PF.lt bv x then argmaxGo (i + 1) i x xs
      else argmaxGo (i + 1) bi bv xs

/-- Embedding of `np.argmax`: index of the first `nan` if any is present, otherwise the
first index attaining the maximum. -/
def npArgmax : List PF → Nat
  | [] => 0
  | x :: xs => if x = PF.nan then 0 else argmaxGo 1 0 x xs

/-- Embedding of `list.index(v)` in Python: index of the first element comparing `==` to
`v` (the optimizer only calls it with `v` drawn from the list itself). -/
def pyIndex (l : List PF) (v : PF) : Nat :=
  l.findIdx (fun x => PF.beq x v)

/-! ## Constructor (`ItineraryOptimizer.__init__`) -/

/-- The weight pair held by a constructed optimizer. -/
structure ItineraryOptimizer where
  cost_weight : ℚ
  time_weight : ℚ
deriving DecidableEq, Repr

/-- The error raised by `ItineraryOptimizer.__init__` when the weights do not
sum to 1 within tolerance (the spec's `ConfigurationError`). -/
inductive ConfigurationError where
  | invalidWeights : ConfigurationError
deriving DecidableEq, Repr

/-- Embedding of `ItineraryOptimizer.__init__`: checks the weight invariant before storing
the weights; no scoring happens on the failure path (the constructor performs
nothing else). -/
def construct (cost_weight time_weight : ℚ) :
    Except ConfigurationError ItineraryOptimizer :=
  if |cost_weight + time_weight - 1| > 1/100 then
    .error .invalidWeights
  else
    .ok { cost_weight := cost_weight, time_weight := time_weight }

/-! ## Candidate records -/

/-- A flight candidate (Python dict): the two fields the optimizer reads. -/
structure Flight where
  total_price : Option ℚ
  duration_hours : Option ℚ
deriving DecidableEq, Repr

/-- A hotel candidate: the two fields the optimizer reads. -/
structure Hotel where
  total_price : Option ℚ
  rating : Option ℚ
deriving DecidableEq, Repr

/-- An activity candidate: the fields the optimizer reads.  `date` is a day
ordinal (see module docstring). -/
structure Activity where
  price_per_person : Option ℚ
  rating : Option ℚ
  duration_hours : Option ℚ
  date : Option Int
  total_price : Option ℚ
deriving DecidableEq, Repr

/-! ## Scorer (`normalize_cost`, `normalize_time`, `calculate_score`) -/

/-- Embedding of `ItineraryOptimizer.normalize_cost`: min-max normalization, lower is
better; all-equal inputs map to all ones; empty input maps to empty. -/
def normalize_cost (costs : List PF) : List PF :=
  if costs.isEmpty then []
  else
    let max_cost := npMax costs
    let min_cost := npMin costs
    if PF.beq max_cost min_cost then costs.map (fun _ => PF.fin 1)
    else costs.map (fun c =>
      PF.sub (PF.fin 1) (PF.div (PF.sub c min_cost) (PF.sub max_cost min_cost)))

/-- Embedding of `ItineraryOptimizer.normalize_time`: textually the same computation as
`normalize_cost` in the source, kept as its own definition to match. -/
def normalize_time (times : List PF) : List PF :=
  if times.isEmpty then []
  else
    let max_time := npMax times
    let min_time := npMin times
    if PF.beq max_time min_time then times.map (fun _ => PF.fin 1)
    else times.map (fun t =>
      PF.sub (PF.fin 1) (PF.div (PF.sub t min_time) (PF.sub max_time min_time)))

/-- The rating normalization inlined in `select_best_hotel` (higher is
better). The source computes it only on non-empty lists. -/
def normalize_rating (ratings : List PF) : List PF :=
  let max_rating := npMax ratings
  let min_rating := npMin ratings
  if PF.beq max_rating min_rating then ratings.map (fun _ => PF.fin 1)
  else ratings.map (fun r =>
    PF.div (PF.sub r min_rating) (PF.sub max_rating min_rating))

/-- Embedding of `ItineraryOptimizer.calculate_score`: looks the two values up by first
occurrence (`list.index`) in the normalized arrays and combines them with the
two weights.  (Python raises if the value is absent; the optimizer only passes
values drawn from the lists, where the lookup always succeeds; out-of-range
access is given the dummy `nan` here.) -/
def calculate_score (cw tw : ℚ) (cost time : PF)
    (all_costs all_times : List PF) : PF :=
  let cost_normalized := normalize_cost all_costs
  let time_normalized := normalize_time all_times
  let cost_idx := pyIndex all_costs cost
  let time_idx := pyIndex all_times time
  let cost_score := cost_normalized.getD cost_idx PF.nan
  let time_score := time_normalized.getD time_idx PF.nan
  PF.add (PF.mul (PF.fin cw) cost_score) (PF.mul (PF.fin tw) time_score)

/-! ## Single-best selection -/

/-- The per-flight score list built inside `select_best_flight`. -/
def flightScores (cw tw : ℚ) (flights : List Flight) : List PF :=
  let costs := flights.map (fun f => pfGet f.total_price PF.inf)
  let times := flights.map (fun f => pfGet f.duration_hours PF.inf)
  (costs.zip times).map (fun ct => calculate_score cw tw ct.1 ct.2 costs times)

/-- Embedding of `ItineraryOptimizer.select_best_flight`: `None` on an empty list, else the
candidate at `np.argmax` of the scores. -/
def select_best_flight (cw tw : ℚ) (flights : List Flight) : Option Flight :=
  if flights.isEmpty then none
  else flights[npArgmax (flightScores cw tw flights)]?

/-- The per-hotel score list built inside `select_best_hotel`: weighted sum of
cost normalization (lower better) and rating normalization (higher better),
with `time_weight` reused as the rating weight. -/
def hotelScores (cw tw : ℚ) (hotels : List Hotel) : List PF :=
  let costs := hotels.map (fun h => pfGet h.total_price PF.inf)
  let ratings := hotels.map (fun h => pfGet h.rating (PF.fin 0))
  let rating_scores := normalize_rating ratings
  let cost_scores := normalize_cost costs
  List.zipWith (fun c r => PF.add (PF.mul (PF.fin cw) c) (PF.mul (PF.fin tw) r))
    cost_scores rating_scores

/-- Embedding of `ItineraryOptimizer.select_best_hotel`. -/
def select_best_hotel (cw tw : ℚ) (hotels : List Hotel) : Option Hotel :=
  if hotels.isEmpty then none
  else hotels[npArgmax (hotelScores cw tw hotels)]?

/-! ## Per-day activity selection (`select_activities`)

Python's `list.sort(key=..., reverse=True)` is a stable descending sort; on a
total key order a stable sort has a unique result, embedded here as a stable
insertion sort (`insertDesc` places an element before the first element with a
key not above its own, so earlier elements stay ahead of later equal keys). -/

/-- Insert into a descending-sorted list, keeping the inserted element ahead of
equal keys already present (it came earlier in the original list). -/
def insertDesc (x : PF × Activity) : List (PF × Activity) → List (PF × Activity)
  | [] => [x]
  | y :: ys => if PF.lt x.1 y.1 then y :: insertDesc x ys else x :: y :: ys

/-- Stable descending sort by the value key: the embedding of
`activities_with_value.sort(key=lambda x: x[0], reverse=True)`. -/
def sortDescKey : List (PF × Activity) → List (PF × Activity)
  | [] => []
  | x :: xs => insertDesc x (sortDescKey xs)

/-- The value heuristic `(rating * 2) / (price / 50)` paired with its
activity, computed only for candidates with positive price and duration;
the embedding of the first loop of `select_activities`. -/
def activitiesWithValue (acts : List Activity) : List (PF × Activity) :=
  acts.filterMap (fun activity =>
    let price := pfGet activity.price_per_person PF.inf
    let rating := pfGet activity.rating (PF.fin 0)
    let duration := pfGet activity.duration_hours (PF.fin 0)
    if PF.lt (PF.fin 0) price ∧ PF.lt (PF.fin 0) duration then
      some (PF.div (PF.mul rating (PF.fin 2)) (PF.div price (PF.fin 50)), activity)
    else none)

/-- The greedy acceptance loop of `select_activities`: accept a candidate iff
the count stays below the cap and the running duration stays within budget.
Durations are re-read with `get("duration_hours", 0)`, always finite, so the
accumulator is an exact rational. -/
def greedyGo (maxCount : Nat) (maxHours : ℚ) :
    List (PF × Activity) → List Activity → ℚ → List Activity
  | [], selected, _ => selected
  | (_, activity) :: rest, selected, total_hours =>
      let duration := (activity.duration_hours).getD 0
      if selected.length < maxCount ∧ total_hours + duration ≤ maxHours then
        greedyGo maxCount maxHours rest (selected ++ [activity]) (total_hours + duration)
      else
        greedyGo maxCount maxHours rest selected total_hours

/-- Embedding of `ItineraryOptimizer.select_activities` (defaults: 3 activities, 8 hours). -/
def select_activities (acts : List Activity)
    (max_activities_per_day : Nat := 3) (max_total_hours : ℚ := 8) : List Activity :=
  if acts.isEmpty then []
  else greedyGo max_activities_per_day max_total_hours
    (sortDescKey (activitiesWithValue acts)) [] 0

/-- Reference algorithm for activity selection, stated the way the spec reads:
drop candidates whose (defaulted) price or duration is not strictly positive,
value the rest by `(rating * 2) / (price / 50)`, sort descending by value
stably, then fold once over the sorted sequence accepting a candidate iff
acceptance keeps the count within `K` and the duration sum within `H`. -/
def refSelectActivities (acts : List Activity) (K : Nat) (H : ℚ) : List Activity :=
  let kept := acts.filter (fun a =>
    PF.lt (PF.fin 0) (pfGet a.price_per_person PF.inf) &&
    PF.lt (PF.fin 0) (pfGet a.duration_hours (PF.fin 0)))
  let valued := kept.map (fun a =>
    (PF.div (PF.mul (pfGet a.rating (PF.fin 0)) (PF.fin 2))
       (PF.div (pfGet a.price_per_person PF.inf) (PF.fin 50)), a))
  let sorted := sortDescKey valued
  (sorted.foldl
    (fun (acc : List Activity × ℚ) p =>
      let d := (p.2.duration_hours).getD 0
      if acc.1.length + 1 ≤ K ∧ acc.2 + d ≤ H then (acc.1 ++ [p.2], acc.2 + d)
      else acc)
    ([], 0)).1

/-! ## Itinerary assembly (`create_itinerary`) -/

/-- One day's plan: the selected activities with their summed cost and
duration.  All summed fields default to `0` in the source, so the totals are
exact rationals. -/
structure DayPlan where
  date : Int
  activities : List Activity
  total_cost : ℚ
  total_time_hours : ℚ
deriving DecidableEq, Repr

/-- The summary block of the itinerary. -/
structure Summary where
  total_cost : ℚ
  total_time_hours : ℚ
  duration_days : Int
  departure_date : Int
  return_date : Int
deriving DecidableEq, Repr

/-- The composed itinerary returned by `create_itinerary`. -/
structure Itinerary where
  flight : Option Flight
  hotel : Option Hotel
  days : List DayPlan
  summary : Summary
deriving DecidableEq, Repr

/-- The body of one iteration of the day loop: filter the activities to the
current date, run `select_activities` with its defaults, and sum the selected
costs and durations (`get(..., 0)` defaults). -/
def dayPlanFor (acts : List Activity) (d : Int) : DayPlan :=
  let day_activities := acts.filter (fun a => a.date == some d)
  let selected := select_activities day_activities 3 8
  let day_cost := (selected.map (fun a => (a.total_price).getD 0)).foldl (· + ·) 0
  let day_time := (selected.map (fun a => (a.duration_hours).getD 0)).foldl (· + ·) 0
  { date := d, activities := selected, total_cost := day_cost,
    total_time_hours := day_time }

/-- The `while current_date < return_dt` loop, with the iteration count made
explicit as fuel (`(ret - cur).toNat` at the call site): appends one `DayPlan`
per day and accumulates the running cost/time totals. -/
def ciLoop (acts : List Activity) :
    Nat → Int → List DayPlan → ℚ → ℚ → List DayPlan × ℚ × ℚ
  | 0, _, days, c, t => (days, c, t)
  | fuel + 1, cur, days, c, t =>
      let dp := dayPlanFor acts cur
      ciLoop acts fuel (cur + 1) (days ++ [dp])
        (c + dp.total_cost) (t + dp.total_time_hours)

/-- Embedding of `ItineraryOptimizer.create_itinerary`.  Dates are day ordinals; the first
full day is `departure + 1` and the loop stops before `return_date`.
(`if best_flight:` is Python truthiness; a selected candidate is a non-`None`
dict, and the only falsy dict is `{}`, whose `get(..., 0)` contributions are
`0` — observationally equal to the `Option` match used here.) -/
def create_itinerary (cw tw : ℚ) (flights : List Flight) (hotels : List Hotel)
    (activities : List Activity) (departure_date return_date : Int) : Itinerary :=
  let best_flight := select_best_flight cw tw flights
  let best_hotel := select_best_hotel cw tw hotels
  let init_cost : ℚ :=
    (match best_flight with
     | some f => (f.total_price).getD 0
     | none => 0) +
    (match best_hotel with
     | some h => (h.total_price).getD 0
     | none => 0)
  let init_time : ℚ :=
    match best_flight with
    | some f => (f.duration_hours).getD 0
    | none => 0
  let start := departure_date + 1
  let result := ciLoop activities (return_date - start).toNat start [] init_cost init_time
  { flight := best_flight
    hotel := best_hotel
    days := result.1
    summary :=
      { total_cost := result.2.1
        total_time_hours := result.2.2
        duration_days := return_date - departure_date
        departure_date := departure_date
        return_date := return_date } }

/-! ## Rational-level reference values

The normalization functions only ever feed finite values into non-trivial
arithmetic; these definitions give the rational-valued counterparts used to
state and prove the claims. -/

/-- Maximum of a rational list, seeded at the head (`0` for `[]`, matching the
`npMax` dummy). -/
def qListMax : List ℚ → ℚ
  | [] => 0
  | x :: xs => xs.foldl max x

/-- Minimum of a rational list, seeded at the head. -/
def qListMin : List ℚ → ℚ
  | [] => 0
  | x :: xs => xs.foldl min x

/-- The rational value of min-max normalization in the `minimize` direction
(what `normalize_cost` / `normalize_time` compute on finite inputs). -/
def qNormMin (l : List ℚ) (v : ℚ) : ℚ :=
  if qListMax l = qListMin l then 1 else 1 - (v - qListMin l) / (qListMax l - qListMin l)

/-- The rational value of min-max normalization in the `maximize` direction
(what the hotel rating normalization computes on finite inputs). -/
def qNormMax (l : List ℚ) (v : ℚ) : ℚ :=
  if qListMax l = qListMin l then 1 else (v - qListMin l) / (qListMax l - qListMin l)

/-- A `PF` value that is a finite rational in `[0, 1]`. -/
def inUnit (x : PF) : Prop := ∃ q : ℚ, x = PF.fin q ∧ 0 ≤ q ∧ q ≤ 1

/-- The pointwise function applied by `normalize_cost` (and `normalize_time`)
to each entry, as determined by the whole list. -/
def normCostF (l : List PF) (c : PF) : PF :=
  if PF.beq (npMax l) (npMin l) then PF.fin 1
  else PF.sub (PF.fin 1) (PF.div (PF.sub c (npMin l)) (PF.sub (npMax l) (npMin l)))

/-- The rational combined score of a flight among `flights` when every
candidate has both numeric fields present. -/
def qFlightScore (cw tw : ℚ) (flights : List Flight) (f : Flight) : ℚ :=
  cw * qNormMin (flights.map (fun g => g.total_price.getD 0)) (f.total_price.getD 0) +
  tw * qNormMin (flights.map (fun g => g.duration_hours.getD 0)) (f.duration_hours.getD 0)

/-- The rational combined score of a hotel among `hotels` when every candidate
has its price present (ratings always default finitely). -/
def qHotelScore (cw tw : ℚ) (hotels : List Hotel) (h : Hotel) : ℚ :=
  cw * qNormMin (hotels.map (fun g => g.total_price.getD 0)) (h.total_price.getD 0) +
  tw * qNormMax (hotels.map (fun g => g.rating.getD 0)) (h.rating.getD 0)

/-- A three-hour activity with the given price, rating and total price (used
as concrete witness data). -/
def threeHourAct (p r tp : ℚ) : Activity :=
  { price_per_person := some p, rating := some r, duration_hours := some 3,
    date := some 2, total_price := some tp }

/-- Five three-hour activities (concrete witness data). -/
def fiveThreeHourActs : List Activity :=
  [threeHourAct 10 4 20, threeHourAct 20 5 40, threeHourAct 30 3 60,
   threeHourAct 40 2 80, threeHourAct 50 1 100]

/-! ## Helper lemmas -/

theorem fmax_fin_fin (a b : ℚ) : fmax (PF.fin a) (PF.fin b) = PF.fin (max a b) := by
  simp only [fmax, PF.lt]
  split
  · simp_all
  · split <;> rename_i h <;> simp only [decide_eq_true_eq] at h
    · simp [max_eq_right (le_of_lt h)]
    · simp [max_eq_left (le_of_not_lt h)]

theorem fmin_fin_fin (a b : ℚ) : fmin (PF.fin a) (PF.fin b) = PF.fin (min a b) := by
  simp only [fmin, PF.lt]
  split
  · simp_all
  · split <;> rename_i h <;> simp only [decide_eq_true_eq] at h
    · simp [min_eq_right (le_of_lt h)]
    · simp [min_eq_left (le_of_not_lt h)]

theorem foldl_fmax_map_fin (xs : List ℚ) (a : ℚ) :
    (xs.map PF.fin).foldl fmax (PF.fin a) = PF.fin (xs.foldl max a) := by
  induction xs generalizing a with
  | nil => rfl
  | cons x xs ih => simp [List.foldl_cons, fmax_fin_fin, ih]

theorem foldl_fmin_map_fin (xs : List ℚ) (a : ℚ) :
    (xs.map PF.fin).foldl fmin (PF.fin a) = PF.fin (xs.foldl min a) := by
  induction xs generalizing a with
  | nil => rfl
  | cons x xs ih => simp [List.foldl_cons, fmin_fin_fin, ih]

theorem npMax_map_fin (l : List ℚ) : npMax (l.map PF.fin) = PF.fin (qListMax l) := by
  cases l with
  | nil => rfl
  | cons x xs => simp [npMax, qListMax, foldl_fmax_map_fin]

theorem npMin_map_fin (l : List ℚ) : npMin (l.map PF.fin) = PF.fin (qListMin l) := by
  cases l with
  | nil => rfl
  | cons x xs => simp [npMin, qListMin, foldl_fmin_map_fin]

theorem init_le_foldl_max : ∀ (xs : List ℚ) (a : ℚ), a ≤ xs.foldl max a
  | [], _ => le_refl _
  | x :: xs, a => le_trans (le_max_left a x) (init_le_foldl_max xs (max a x))

theorem le_foldl_max_of_mem : ∀ (xs : List ℚ) (a x : ℚ), x ∈ xs → x ≤ xs.foldl max a
  | y :: ys, a, x, h => by
      rcases List.mem_cons.mp h with rfl | h
      · exact le_trans (le_max_right a x) (init_le_foldl_max ys (max a x))
      · exact le_foldl_max_of_mem ys (max a y) x h

theorem foldl_min_le_init : ∀ (xs : List ℚ) (a : ℚ), xs.foldl min a ≤ a
  | [], _ => le_refl _
  | x :: xs, a => le_trans (foldl_min_le_init xs (min a x)) (min_le_left a x)

theorem foldl_min_le_of_mem : ∀ (xs : List ℚ) (a x : ℚ), x ∈ xs → xs.foldl min a ≤ x
  | y :: ys, a, x, h => by
      rcases List.mem_cons.mp h with rfl | h
      · exact le_trans (foldl_min_le_init ys (min a x)) (min_le_right a x)
      · exact foldl_min_le_of_mem ys (min a y) x h

theorem le_qListMax {l : List ℚ} {x : ℚ} (h : x ∈ l) : x ≤ qListMax l := by
  cases l with
  | nil => cases h
  | cons y ys =>
      rcases List.mem_cons.mp h with rfl | h
      · exact init_le_foldl_max ys x
      · exact le_foldl_max_of_mem ys y x h

theorem qListMin_le {l : List ℚ} {x : ℚ} (h : x ∈ l) : qListMin l ≤ x := by
  cases l with
  | nil => cases h
  | cons y ys =>
      rcases List.mem_cons.mp h with rfl | h
      · exact foldl_min_le_init ys x
      · exact foldl_min_le_of_mem ys y x h

theorem beq_fin_fin (a b : ℚ) : PF.beq (PF.fin a) (PF.fin b) = true ↔ a = b := by
  simp [PF.beq]

theorem sub_fin_fin (a b : ℚ) : PF.sub (PF.fin a) (PF.fin b) = PF.fin (a - b) := by
  simp [PF.sub, PF.add, PF.neg, sub_eq_add_neg]

theorem div_fin_fin (a b : ℚ) (hb : b ≠ 0) :
    PF.div (PF.fin a) (PF.fin b) = PF.fin (a / b) := by
  simp [PF.div, hb]

/-- On finite inputs, `normalize_cost` is the pointwise `minimize`
normalization with rational values. -/
theorem normalize_cost_map_fin (l : List ℚ) :
    normalize_cost (l.map PF.fin) = l.map (fun v => PF.fin (qNormMin l v)) := by
  cases l with
  | nil => rfl
  | cons x xs =>
      unfold normalize_cost
      rw [npMax_map_fin, npMin_map_fin]
      by_cases h : qListMax (x :: xs) = qListMin (x :: xs)
      · rw [if_neg (by simp), if_pos ((beq_fin_fin _ _).mpr h), List.map_map]
        apply List.map_congr_left
        intro v _
        simp [Function.comp, qNormMin, h]
      · rw [if_neg (by simp), if_neg (by simp [beq_fin_fin, h]), List.map_map]
        apply List.map_congr_left
        intro v _
        have hne : qListMax (x :: xs) - qListMin (x :: xs) ≠ 0 := sub_ne_zero.mpr h
        simp [Function.comp, qNormMin, h, sub_fin_fin, div_fin_fin _ _ hne]

/-- The time normalization is the identical computation. -/
theorem normalize_time_eq_normalize_cost : normalize_time = normalize_cost := rfl

/-- On finite inputs, the hotel rating normalization is the pointwise
`maximize` normalization with rational values. -/
theorem normalize_rating_map_fin (l : List ℚ) :
    normalize_rating (l.map PF.fin) = l.map (fun v => PF.fin (qNormMax l v)) := by
  cases l with
  | nil => rfl
  | cons x xs =>
      unfold normalize_rating
      rw [npMax_map_fin, npMin_map_fin]
      by_cases h : qListMax (x :: xs) = qListMin (x :: xs)
      · rw [if_pos ((beq_fin_fin _ _).mpr h), List.map_map]
        apply List.map_congr_left
        intro v _
        simp [Function.comp, qNormMax, h]
      · rw [if_neg (by simp [beq_fin_fin, h]), List.map_map]
        apply List.map_congr_left
        intro v _
        have hne : qListMax (x :: xs) - qListMin (x :: xs) ≠ 0 := sub_ne_zero.mpr h
        simp [Function.comp, qNormMax, h, sub_fin_fin, div_fin_fin _ _ hne]

theorem qNormMin_bounds {l : List ℚ} {v : ℚ} (hv : v ∈ l) :
    0 ≤ qNormMin l v ∧ qNormMin l v ≤ 1 := by
  unfold qNormMin
  split <;> rename_i h
  · exact ⟨zero_le_one, le_refl 1⟩
  · have hlo : qListMin l ≤ v := qListMin_le hv
    have hhi : v ≤ qListMax l := le_qListMax hv
    have hpos : 0 < qListMax l - qListMin l := by
      rcases lt_or_eq_of_le (le_trans hlo hhi) with h' | h'
      · linarith
      · exact absurd h'.symm h
    constructor
    · have : (v - qListMin l) / (qListMax l - qListMin l) ≤ 1 := by
        rw [div_le_one hpos]; linarith
      linarith
    · have : 0 ≤ (v - qListMin l) / (qListMax l - qListMin l) :=
        div_nonneg (by linarith) (le_of_lt hpos)
      linarith

theorem qNormMax_bounds {l : List ℚ} {v : ℚ} (hv : v ∈ l) :
    0 ≤ qNormMax l v ∧ qNormMax l v ≤ 1 := by
  unfold qNormMax
  split <;> rename_i h
  · exact ⟨zero_le_one, le_refl 1⟩
  · have hlo : qListMin l ≤ v := qListMin_le hv
    have hhi : v ≤ qListMax l := le_qListMax hv
    have hpos : 0 < qListMax l - qListMin l := by
      rcases lt_or_eq_of_le (le_trans hlo hhi) with h' | h'
      · linarith
      · exact absurd h'.symm h
    exact ⟨div_nonneg (by linarith) (le_of_lt hpos), by rw [div_le_one hpos]; linarith⟩

theorem qNormMin_at_min (l : List ℚ) : qNormMin l (qListMin l) = 1 := by
  unfold qNormMin
  split <;> simp

theorem qNormMax_at_max (l : List ℚ) : qNormMax l (qListMax l) = 1 := by
  unfold qNormMax
  split <;> rename_i h
  · rfl
  · rw [div_self (sub_ne_zero.mpr h)]

theorem qListMax_eq_of_all_eq {l : List ℚ} (h : ∀ x ∈ l, ∀ y ∈ l, x = y) :
    qListMax l = qListMin l := by
  cases l with
  | nil => rfl
  | cons x xs =>
      have hmax : ∀ ys ⊆ xs, ys.foldl max x = x := by
        intro ys
        induction ys with
        | nil => intro _; rfl
        | cons y ys ih =>
            intro hsub
            have hy : y = x :=
              h y (List.mem_cons_of_mem x (hsub (List.mem_cons_self _ _)))
                x (List.mem_cons_self _ _)
            simp only [List.foldl_cons, hy, max_self]
            exact ih (fun z hz => hsub (List.mem_cons_of_mem y hz))
      have hmin : ∀ ys ⊆ xs, ys.foldl min x = x := by
        intro ys
        induction ys with
        | nil => intro _; rfl
        | cons y ys ih =>
            intro hsub
            have hy : y = x :=
              h y (List.mem_cons_of_mem x (hsub (List.mem_cons_self _ _)))
                x (List.mem_cons_self _ _)
            simp only [List.foldl_cons, hy, min_self]
            exact ih (fun z hz => hsub (List.mem_cons_of_mem y hz))
      simp [qListMax, qListMin, hmax xs (List.Subset.refl xs),
        hmin xs (List.Subset.refl xs)]

/-! # Claims -/

/-- C1 (evaluation at the failing input): with one complete candidate and one
candidate missing its numeric fields, both `select_best_flight` and
`select_best_hotel` return the *incomplete* candidate.  The `float('inf')`
default makes the normalization produce `nan` for the incomplete candidate
(`inf / inf`), and `np.argmax` returns the index of the first `nan`, so the
incomplete candidate is selected over the complete one — contradicting the
stated intent that incomplete candidates are never preferentially selected. -/
theorem select_best_prefers_incomplete_candidate :
    select_best_flight 0.6 0.4
      [{ total_price := some 100, duration_hours := some 5 },
       { total_price := none, duration_hours := none }] =
      some { total_price := none, duration_hours := none } ∧
    select_best_hotel 0.6 0.4
      [{ total_price := some 100, rating := some 4 },
       { total_price := none, rating := none }] =
      some { total_price := none, rating := none } := by
  constructor <;> with_unfolding_all rfl

/-- C5: construction fails with `ConfigurationError` iff
`|cost_weight + time_weight - 1| > 0.01`; in particular `0.5/0.4` fails and
`0.6/0.4` succeeds.  The failure is decided before anything else: the
constructor stores the weights and performs no scoring. -/
theorem construct_weight_invariant (cw tw : ℚ) :
    (construct cw tw = .error .invalidWeights ↔ |cw + tw - 1| > 1/100) ∧
    construct 0.5 0.4 = .error .invalidWeights ∧
    construct 0.6 0.4 = .ok { cost_weight := 0.6, time_weight := 0.4 } := by
  refine ⟨?_, by with_unfolding_all rfl, by with_unfolding_all rfl⟩
  unfold construct
  split <;> simp_all

/-- C8: on entirely empty candidate lists with departure 2025-06-01 and
return 2025-06-08 (day ordinals `20250601` / `20250608`; within a single
month the ISO digits and the day ordinal advance identically), the itinerary
has no flight, no hotel, exactly the six empty day plans June 2 – June 7, and
a zero summary with `duration_days = 7`. -/
theorem create_itinerary_empty_inputs :
    create_itinerary 0.6 0.4 [] [] [] 20250601 20250608 =
      { flight := none
        hotel := none
        days :=
          [{ date := 20250602, activities := [], total_cost := 0, total_time_hours := 0 },
           { date := 20250603, activities := [], total_cost := 0, total_time_hours := 0 },
           { date := 20250604, activities := [], total_cost := 0, total_time_hours := 0 },
           { date := 20250605, activities := [], total_cost := 0, total_time_hours := 0 },
           { date := 20250606, activities := [], total_cost := 0, total_time_hours := 0 },
           { date := 20250607, activities := [], total_cost := 0, total_time_hours := 0 }]
        summary :=
          { total_cost := 0, total_time_hours := 0, duration_days := 7,
            departure_date := 20250601, return_date := 20250608 } } := by
  with_unfolding_all rfl

/-- C9: `create_itinerary` is deterministic — the embedding is a pure function
of its inputs (the source performs no I/O and reads no mutable state beyond
the two weights, and its sorts and tie-breaks are stable), so two runs on
identical inputs yield identical itineraries. -/
theorem create_itinerary_deterministic (cw tw : ℚ) (flights : List Flight)
    (hotels : List Hotel) (activities : List Activity) (dep ret : Int) :
    create_itinerary cw tw flights hotels activities dep ret =
    create_itinerary cw tw flights hotels activities dep ret := rfl

/-- C4: for a non-empty finite input list, the three normalizations return a
parallel list (same length, pointwise in order): every value lies in `[0,1]`;
any position holding the minimum maps to `1` in the `minimize` direction
(`normalize_cost`, with `normalize_time` the identical computation) and any
position holding the maximum maps to `1` in the `maximize` direction (the
hotel rating normalization); an all-equal list maps to all ones in both
directions; and empty input returns empty. -/
theorem normalize_bounds (l : List ℚ) (hne : l ≠ []) :
    (normalize_cost (l.map PF.fin)).length = l.length ∧
    normalize_time (l.map PF.fin) = normalize_cost (l.map PF.fin) ∧
    (normalize_rating (l.map PF.fin)).length = l.length ∧
    (∀ x ∈ normalize_cost (l.map PF.fin), inUnit x) ∧
    (∀ x ∈ normalize_rating (l.map PF.fin), inUnit x) ∧
    (∀ i : Nat, l[i]? = some (qListMin l) →
      (normalize_cost (l.map PF.fin))[i]? = some (PF.fin 1)) ∧
    (∀ i : Nat, l[i]? = some (qListMax l) →
      (normalize_rating (l.map PF.fin))[i]? = some (PF.fin 1)) ∧
    ((∀ x ∈ l, ∀ y ∈ l, x = y) →
      normalize_cost (l.map PF.fin) = l.map (fun _ => PF.fin 1) ∧
      normalize_rating (l.map PF.fin) = l.map (fun _ => PF.fin 1)) ∧
    normalize_cost [] = [] ∧ normalize_time [] = [] ∧ normalize_rating [] = [] := by
  refine ⟨?_, ?_, ?_, ?_, ?_, ?_, ?_, ?_, rfl, rfl, rfl⟩
  · rw [normalize_cost_map_fin]; simp
  · rw [normalize_time_eq_normalize_cost]
  · rw [normalize_rating_map_fin]; simp
  · rw [normalize_cost_map_fin]
    intro x hx
    rcases List.mem_map.mp hx with ⟨v, hv, rfl⟩
    exact ⟨qNormMin l v, rfl, qNormMin_bounds hv⟩
  · rw [normalize_rating_map_fin]
    intro x hx
    rcases List.mem_map.mp hx with ⟨v, hv, rfl⟩
    exact ⟨qNormMax l v, rfl, qNormMax_bounds hv⟩
  · intro i hi
    rw [normalize_cost_map_fin, List.getElem?_map, hi]
    simp [qNormMin_at_min]
  · intro i hi
    rw [normalize_rating_map_fin, List.getElem?_map, hi]
    simp [qNormMax_at_max]
  · intro hall
    have h := qListMax_eq_of_all_eq hall
    constructor
    · rw [normalize_cost_map_fin]
      apply List.map_congr_left
      intro v _
      simp [qNormMin, h]
    · rw [normalize_rating_map_fin]
      apply List.map_congr_left
      intro v _
      simp [qNormMax, h]

/-- Witness for `normalize_bounds` at the concrete input `[2, 1]`. -/
theorem normalize_bounds_witness :
    (([2, 1] : List ℚ) ≠ []) ∧
    ((normalize_cost (([2, 1] : List ℚ).map PF.fin)).length = ([2, 1] : List ℚ).length ∧
    normalize_time (([2, 1] : List ℚ).map PF.fin) =
      normalize_cost (([2, 1] : List ℚ).map PF.fin) ∧
    (normalize_rating (([2, 1] : List ℚ).map PF.fin)).length = ([2, 1] : List ℚ).length ∧
    (∀ x ∈ normalize_cost (([2, 1] : List ℚ).map PF.fin), inUnit x) ∧
    (∀ x ∈ normalize_rating (([2, 1] : List ℚ).map PF.fin), inUnit x) ∧
    (∀ i : Nat, ([2, 1] : List ℚ)[i]? = some (qListMin ([2, 1] : List ℚ)) →
      (normalize_cost (([2, 1] : List ℚ).map PF.fin))[i]? = some (PF.fin 1)) ∧
    (∀ i : Nat, ([2, 1] : List ℚ)[i]? = some (qListMax ([2, 1] : List ℚ)) →
      (normalize_rating (([2, 1] : List ℚ).map PF.fin))[i]? = some (PF.fin 1)) ∧
    ((∀ x ∈ ([2, 1] : List ℚ), ∀ y ∈ ([2, 1] : List ℚ), x = y) →
      normalize_cost (([2, 1] : List ℚ).map PF.fin) =
        ([2, 1] : List ℚ).map (fun _ => PF.fin 1) ∧
      normalize_rating (([2, 1] : List ℚ).map PF.fin) =
        ([2, 1] : List ℚ).map (fun _ => PF.fin 1)) ∧
    normalize_cost [] = [] ∧ normalize_time [] = [] ∧ normalize_rating [] = []) :=
  ⟨by simp, normalize_bounds [2, 1] (by simp)⟩

theorem findIdx_map_comp {α β : Type} (f : α → β) (p : β → Bool) (l : List α) :
    (l.map f).findIdx p = l.findIdx (fun x => p (f x)) := by
  induction l with
  | nil => rfl
  | cons x xs ih => simp [List.findIdx_cons, ih]

theorem pfGet_zero_fin (o : Option ℚ) : pfGet o (PF.fin 0) = PF.fin (o.getD 0) := by
  cases o <;> rfl

theorem pfGet_some (q : ℚ) (d : PF) : pfGet (some q) d = PF.fin q := rfl

/-- Scan invariant for numpy's argmax on nan-free (finite) input: having
scanned `pre` with current best index `bi` holding value `bv`, the final
answer indexes a maximal element and every strictly earlier element is
strictly below it. -/
theorem argmaxGo_fin_spec :
    ∀ (xs pre : List ℚ) (bi : Nat) (bv : ℚ),
      bi < pre.length → pre[bi]? = some bv →
      (∀ (j : Nat) (v : ℚ), pre[j]? = some v → v ≤ bv) →
      (∀ j : Nat, j < bi → ∀ v : ℚ, pre[j]? = some v → v < bv) →
      ∃ bv', argmaxGo pre.length bi (PF.fin bv) (xs.map PF.fin) < (pre ++ xs).length ∧
        (pre ++ xs)[argmaxGo pre.length bi (PF.fin bv) (xs.map PF.fin)]? = some bv' ∧
        (∀ (j : Nat) (v : ℚ), (pre ++ xs)[j]? = some v → v ≤ bv') ∧
        (∀ j : Nat, j < argmaxGo pre.length bi (PF.fin bv) (xs.map PF.fin) →
          ∀ v : ℚ, (pre ++ xs)[j]? = some v → v < bv') := by
  intro xs
  induction xs with
  | nil =>
      intro pre bi bv hbi hget hle hlt
      simp only [List.map_nil, argmaxGo, List.append_nil]
      exact ⟨bv, hbi, hget, hle, hlt⟩
  | cons x xs ih =>
      intro pre bi bv hbi hget hle hlt
      have hpre1 : (pre ++ [x]) ++ xs = pre ++ x :: xs := by
        rw [List.append_assoc]; rfl
      simp only [List.map_cons, argmaxGo]
      rw [if_neg (by simp)]
      by_cases hx : bv < x
      · rw [if_pos (by simp [PF.lt, hx])]
        have hlen : pre.length + 1 = (pre ++ [x]).length := by simp
        rw [hlen]
        have h1 : pre.length < (pre ++ [x]).length := by simp
        have h2 : (pre ++ [x])[pre.length]? = some x := List.getElem?_concat_length pre x
        have h3 : ∀ (j : Nat) (v : ℚ), (pre ++ [x])[j]? = some v → v ≤ x := by
          intro j v hj
          rcases Nat.lt_or_ge j pre.length with hj' | hj'
          · rw [List.getElem?_append_left hj'] at hj
            exact le_of_lt (lt_of_le_of_lt (hle j v hj) hx)
          · rcases Nat.eq_or_lt_of_le hj' with rfl | hj''
            · rw [h2] at hj; cases hj; exact le_refl _
            · rw [List.getElem?_append_right hj'] at hj
              have hlen1 : ([x] : List ℚ).length ≤ j - pre.length := by simp; omega
              rw [List.getElem?_eq_none_iff.mpr hlen1] at hj
              exact Option.noConfusion hj
        have h4 : ∀ j : Nat, j < pre.length → ∀ v : ℚ, (pre ++ [x])[j]? = some v → v < x := by
          intro j hj v hjv
          rw [List.getElem?_append_left hj] at hjv
          exact lt_of_le_of_lt (hle j v hjv) hx
        have := ih (pre ++ [x]) pre.length x h1 h2 h3 h4
        rwa [hpre1] at this
      · rw [if_neg (by simp [PF.lt, hx])]
        have hlen : pre.length + 1 = (pre ++ [x]).length := by simp
        rw [hlen]
        have h1 : bi < (pre ++ [x]).length := by simp; omega
        have h2 : (pre ++ [x])[bi]? = some bv := by
          rw [List.getElem?_append_left hbi]; exact hget
        have h3 : ∀ (j : Nat) (v : ℚ), (pre ++ [x])[j]? = some v → v ≤ bv := by
          intro j v hj
          rcases Nat.lt_or_ge j pre.length with hj' | hj'
          · rw [List.getElem?_append_left hj'] at hj
            exact hle j v hj
          · rcases Nat.eq_or_lt_of_le hj' with rfl | hj''
            · rw [List.getElem?_concat_length] at hj
              cases hj; exact le_of_not_lt hx
            · rw [List.getElem?_append_right hj'] at hj
              have hlen1 : ([x] : List ℚ).length ≤ j - pre.length := by simp; omega
              rw [List.getElem?_eq_none_iff.mpr hlen1] at hj
              exact Option.noConfusion hj
        have h4 : ∀ j : Nat, j < bi → ∀ v : ℚ, (pre ++ [x])[j]? = some v → v < bv := by
          intro j hj v hjv
          rw [List.getElem?_append_left (lt_trans hj hbi)] at hjv
          exact hlt j hj v hjv
        have := ih (pre ++ [x]) bi bv h1 h2 h3 h4
        rwa [hpre1] at this

/-- On a non-empty nan-free (finite) score list, `np.argmax` returns the first
index attaining the maximum. -/
theorem npArgmax_map_fin_spec (qs : List ℚ) (h : qs ≠ []) :
    npArgmax (qs.map PF.fin) < qs.length ∧
      ∃ m, qs[npArgmax (qs.map PF.fin)]? = some m ∧
        (∀ (j : Nat) (v : ℚ), qs[j]? = some v → v ≤ m) ∧
        (∀ j : Nat, j < npArgmax (qs.map PF.fin) → ∀ v : ℚ, qs[j]? = some v → v < m) := by
  cases qs with
  | nil => exact absurd rfl h
  | cons q qs' =>
      have key := argmaxGo_fin_spec qs' [q] 0 q (by simp) (by simp)
        (by intro j v hj
            cases j with
            | zero =>
                simp only [List.getElem?_cons_zero, Option.some_inj] at hj
                exact le_of_eq hj.symm
            | succ j => simp at hj)
        (by intro j hj
            exact absurd hj (Nat.not_lt_zero j))
      simp only [List.singleton_append, List.length_cons] at key
      rcases key with ⟨m, h1, h2, h3, h4⟩
      have hrw : npArgmax ((q :: qs').map PF.fin) = argmaxGo 1 0 (PF.fin q) (qs'.map PF.fin) := by
        simp [npArgmax]
      rw [hrw]
      exact ⟨by simpa using h1, m, h2, h3, h4⟩

/-- On finite inputs drawn from the lists, `calculate_score` computes the
direct weighted combination of the rational normalizations. -/
theorem calculate_score_fin (cw tw c t : ℚ) (cl tl : List ℚ)
    (hc : c ∈ cl) (ht : t ∈ tl) :
    calculate_score cw tw (PF.fin c) (PF.fin t) (cl.map PF.fin) (tl.map PF.fin) =
      PF.fin (cw * qNormMin cl c + tw * qNormMin tl t) := by
  unfold calculate_score
  rw [normalize_time_eq_normalize_cost, normalize_cost_map_fin, normalize_cost_map_fin]
  have hidx : ∀ (l : List ℚ) (v : ℚ), pyIndex (l.map PF.fin) (PF.fin v) =
      l.findIdx (fun x => x == v) := by
    intro l v
    unfold pyIndex
    rw [findIdx_map_comp]
    simp [PF.beq]
  rw [hidx, hidx]
  have key : ∀ (l : List ℚ) (v : ℚ), v ∈ l →
      (l.map (fun w => PF.fin (qNormMin l w))).getD (l.findIdx (fun x => x == v)) PF.nan =
        PF.fin (qNormMin l v) := by
    intro l v hv
    have hex : ∃ x ∈ l, (fun x => x == v) x = true := ⟨v, hv, by simp⟩
    have hlt := List.findIdx_lt_length_of_exists hex
    have hfound : l.get ⟨l.findIdx (fun x => x == v), hlt⟩ == v :=
      List.findIdx_getElem (w := hlt)
    have heq : l.get ⟨l.findIdx (fun x => x == v), hlt⟩ = v := by
      simpa using hfound
    rw [List.get_eq_getElem] at heq
    rw [List.getD_eq_getElem?_getD, List.getElem?_map,
      List.getElem?_eq_getElem hlt]
    simp [heq]
  dsimp only
  rw [key cl c hc, key tl t ht]
  rfl

/-- Under full field presence, the flight score list is the finite embedding
of the rational scores. -/
theorem flightScores_fin (cw tw : ℚ) (flights : List Flight)
    (hall : ∀ f ∈ flights, f.total_price ≠ none ∧ f.duration_hours ≠ none) :
    flightScores cw tw flights =
      flights.map (fun f => PF.fin (qFlightScore cw tw flights f)) := by
  unfold flightScores
  have hc : flights.map (fun f => pfGet f.total_price PF.inf) =
      (flights.map (fun f => f.total_price.getD 0)).map PF.fin := by
    rw [List.map_map]
    apply List.map_congr_left
    intro f hf
    rcases hfp : f.total_price with _ | q
    · exact absurd hfp (hall f hf).1
    · simp [Function.comp, hfp, pfGet]
  have ht : flights.map (fun f => pfGet f.duration_hours PF.inf) =
      (flights.map (fun f => f.duration_hours.getD 0)).map PF.fin := by
    rw [List.map_map]
    apply List.map_congr_left
    intro f hf
    rcases hfd : f.duration_hours with _ | q
    · exact absurd hfd (hall f hf).2
    · simp [Function.comp, hfd, pfGet]
  rw [hc, ht]
  dsimp only
  rw [List.zip_map, List.zip_map', List.map_map, List.map_map]
  apply List.map_congr_left
  intro f hf
  have h1 : f.total_price.getD 0 ∈ flights.map (fun g => g.total_price.getD 0) :=
    List.mem_map.mpr ⟨f, hf, rfl⟩
  have h2 : f.duration_hours.getD 0 ∈ flights.map (fun g => g.duration_hours.getD 0) :=
    List.mem_map.mpr ⟨f, hf, rfl⟩
  simpa [Function.comp, qFlightScore, Prod.map] using
    calculate_score_fin cw tw (f.total_price.getD 0) (f.duration_hours.getD 0)
      (flights.map (fun g => g.total_price.getD 0))
      (flights.map (fun g => g.duration_hours.getD 0)) h1 h2

/-- Under price presence, the hotel score list is the finite embedding of the
rational scores. -/
theorem hotelScores_fin (cw tw : ℚ) (hotels : List Hotel)
    (hp : ∀ h ∈ hotels, h.total_price ≠ none) :
    hotelScores cw tw hotels =
      hotels.map (fun h => PF.fin (qHotelScore cw tw hotels h)) := by
  unfold hotelScores
  have hc : hotels.map (fun h => pfGet h.total_price PF.inf) =
      (hotels.map (fun h => h.total_price.getD 0)).map PF.fin := by
    rw [List.map_map]
    apply List.map_congr_left
    intro h hh
    rcases hfp : h.total_price with _ | q
    · exact absurd hfp (hp h hh)
    · simp [Function.comp, hfp, pfGet]
  have hr : hotels.map (fun h => pfGet h.rating (PF.fin 0)) =
      (hotels.map (fun h => h.rating.getD 0)).map PF.fin := by
    rw [List.map_map]
    apply List.map_congr_left
    intro h _
    simp [Function.comp, pfGet_zero_fin]
  rw [hc, hr]
  dsimp only
  rw [normalize_cost_map_fin, normalize_rating_map_fin, List.zipWith_map,
    List.zipWith_map, List.zipWith_same]
  apply List.map_congr_left
  intro h _
  simp [Function.comp, qHotelScore, PF.mul, PF.add]

theorem pfGet_ne_nan {o : Option ℚ} {d : PF} (hd : d ≠ PF.nan) : pfGet o d ≠ PF.nan := by
  cases o with
  | none => exact hd
  | some q => exact fun h => PF.noConfusion h

theorem fmax_self {c : PF} (h : c ≠ PF.nan) : fmax c c = c := by
  unfold fmax
  rw [if_neg (by simp [h])]
  exact ite_self c

theorem fmin_self {c : PF} (h : c ≠ PF.nan) : fmin c c = c := by
  unfold fmin
  rw [if_neg (by simp [h])]
  exact ite_self c

theorem PF.beq_self {c : PF} (h : c ≠ PF.nan) : PF.beq c c = true := by
  cases c with
  | nan => exact absurd rfl h
  | inf => rfl
  | ninf => rfl
  | fin q => simp [PF.beq]

theorem PF.le_fin_fin (a b : ℚ) : PF.le (PF.fin a) (PF.fin b) = true ↔ a ≤ b := by
  simp [PF.le]

theorem PF.lt_fin_fin (a b : ℚ) : PF.lt (PF.fin a) (PF.fin b) = true ↔ a < b := by
  simp [PF.lt]

theorem normalize_cost_pair_self (c : PF) (h : c ≠ PF.nan) :
    normalize_cost [c, c] = [PF.fin 1, PF.fin 1] := by
  unfold normalize_cost
  rw [if_neg (by simp)]
  have h1 : npMax [c, c] = c := by simp [npMax, fmax_self h]
  have h2 : npMin [c, c] = c := by simp [npMin, fmin_self h]
  rw [h1, h2, if_pos (PF.beq_self h)]
  rfl

theorem normalize_rating_pair_self (r : PF) (h : r ≠ PF.nan) :
    normalize_rating [r, r] = [PF.fin 1, PF.fin 1] := by
  unfold normalize_rating
  have h1 : npMax [r, r] = r := by simp [npMax, fmax_self h]
  have h2 : npMin [r, r] = r := by simp [npMin, fmin_self h]
  rw [h1, h2, if_pos (PF.beq_self h)]
  rfl

theorem getD_map_fin (qs : List ℚ) (j : Nat) (hj : j < qs.length) :
    (qs.map PF.fin).getD j PF.nan = PF.fin (qs.get ⟨j, hj⟩) := by
  rw [List.getD_eq_getElem?_getD, List.getElem?_map, List.getElem?_eq_getElem hj]
  simp

/-- C3: on candidate lists whose scored fields are present, `select_best_flight`
and `select_best_hotel` return the candidate at an argmax of the combined
score list, and on exact ties the first such candidate in input order (every
strictly earlier candidate scores strictly lower); in particular two hotels
with identical `total_price` and `rating` give argmax index `0`, so the
earlier hotel is selected. -/
theorem select_best_first_argmax (cw tw : ℚ) :
    (∀ flights : List Flight, flights ≠ [] →
      (∀ f ∈ flights, f.total_price ≠ none ∧ f.duration_hours ≠ none) →
      ∃ i : Nat, i < flights.length ∧
        select_best_flight cw tw flights = flights[i]? ∧
        (∀ j : Nat, j < flights.length →
          PF.le ((flightScores cw tw flights).getD j PF.nan)
            ((flightScores cw tw flights).getD i PF.nan) = true) ∧
        (∀ j : Nat, j < i →
          PF.lt ((flightScores cw tw flights).getD j PF.nan)
            ((flightScores cw tw flights).getD i PF.nan) = true)) ∧
    (∀ hotels : List Hotel, hotels ≠ [] →
      (∀ h ∈ hotels, h.total_price ≠ none) →
      ∃ i : Nat, i < hotels.length ∧
        select_best_hotel cw tw hotels = hotels[i]? ∧
        (∀ j : Nat, j < hotels.length →
          PF.le ((hotelScores cw tw hotels).getD j PF.nan)
            ((hotelScores cw tw hotels).getD i PF.nan) = true) ∧
        (∀ j : Nat, j < i →
          PF.lt ((hotelScores cw tw hotels).getD j PF.nan)
            ((hotelScores cw tw hotels).getD i PF.nan) = true)) ∧
    (∀ h1 h2 : Hotel, h1.total_price = h2.total_price → h1.rating = h2.rating →
      npArgmax (hotelScores cw tw [h1, h2]) = 0 ∧
      select_best_hotel cw tw [h1, h2] = some h1) := by
  refine ⟨?_, ?_, ?_⟩
  · intro flights hne hall
    have hs : flightScores cw tw flights =
        (flights.map (fun f => qFlightScore cw tw flights f)).map PF.fin := by
      rw [flightScores_fin cw tw flights hall, List.map_map]
      rfl
    set qs := flights.map (fun f => qFlightScore cw tw flights f) with hqsdef
    have hqne : qs ≠ [] := by
      simpa [hqsdef] using hne
    obtain ⟨hlt, m, hm, hle', hlt'⟩ := npArgmax_map_fin_spec qs hqne
    refine ⟨npArgmax (qs.map PF.fin), ?_, ?_, ?_, ?_⟩
    · simpa [hqsdef] using hlt
    · unfold select_best_flight
      rw [if_neg (by simp [hne]), hs]
    · intro j hj
      rw [hs]
      have hjq : j < qs.length := by simpa [hqsdef] using hj
      rw [getD_map_fin qs j hjq, getD_map_fin qs _ hlt]
      rw [PF.le_fin_fin]
      have h1 : qs[j]? = some (qs.get ⟨j, hjq⟩) := by
        rw [List.getElem?_eq_getElem hjq]; rfl
      have h2 : qs.get ⟨npArgmax (qs.map PF.fin), hlt⟩ = m := by
        have := List.getElem?_eq_getElem hlt
        rw [this] at hm
        exact Option.some_inj.mp hm
      rw [h2]
      exact hle' j _ h1
    · intro j hj
      rw [hs]
      have hjq : j < qs.length := lt_trans hj hlt
      rw [getD_map_fin qs j hjq, getD_map_fin qs _ hlt]
      rw [PF.lt_fin_fin]
      have h1 : qs[j]? = some (qs.get ⟨j, hjq⟩) := by
        rw [List.getElem?_eq_getElem hjq]; rfl
      have h2 : qs.get ⟨npArgmax (qs.map PF.fin), hlt⟩ = m := by
        have := List.getElem?_eq_getElem hlt
        rw [this] at hm
        exact Option.some_inj.mp hm
      rw [h2]
      exact hlt' j hj _ h1
  · intro hotels hne hp
    have hs : hotelScores cw tw hotels =
        (hotels.map (fun h => qHotelScore cw tw hotels h)).map PF.fin := by
      rw [hotelScores_fin cw tw hotels hp, List.map_map]
      rfl
    set qs := hotels.map (fun h => qHotelScore cw tw hotels h) with hqsdef
    have hqne : qs ≠ [] := by
      simpa [hqsdef] using hne
    obtain ⟨hlt, m, hm, hle', hlt'⟩ := npArgmax_map_fin_spec qs hqne
    refine ⟨npArgmax (qs.map PF.fin), ?_, ?_, ?_, ?_⟩
    · simpa [hqsdef] using hlt
    · unfold select_best_hotel
      rw [if_neg (by simp [hne]), hs]
    · intro j hj
      rw [hs]
      have hjq : j < qs.length := by simpa [hqsdef] using hj
      rw [getD_map_fin qs j hjq, getD_map_fin qs _ hlt]
      rw [PF.le_fin_fin]
      have h1 : qs[j]? = some (qs.get ⟨j, hjq⟩) := by
        rw [List.getElem?_eq_getElem hjq]; rfl
      have h2 : qs.get ⟨npArgmax (qs.map PF.fin), hlt⟩ = m := by
        have := List.getElem?_eq_getElem hlt
        rw [this] at hm
        exact Option.some_inj.mp hm
      rw [h2]
      exact hle' j _ h1
    · intro j hj
      rw [hs]
      have hjq : j < qs.length := lt_trans hj hlt
      rw [getD_map_fin qs j hjq, getD_map_fin qs _ hlt]
      rw [PF.lt_fin_fin]
      have h1 : qs[j]? = some (qs.get ⟨j, hjq⟩) := by
        rw [List.getElem?_eq_getElem hjq]; rfl
      have h2 : qs.get ⟨npArgmax (qs.map PF.fin), hlt⟩ = m := by
        have := List.getElem?_eq_getElem hlt
        rw [this] at hm
        exact Option.some_inj.mp hm
      rw [h2]
      exact hlt' j hj _ h1
  · intro h1 h2 hp hr
    have hcn : pfGet h1.total_price PF.inf ≠ PF.nan :=
      pfGet_ne_nan (fun h => PF.noConfusion h)
    have hrn : pfGet h1.rating (PF.fin 0) ≠ PF.nan :=
      pfGet_ne_nan (fun h => PF.noConfusion h)
    have hmc : ([h1, h2].map (fun h => pfGet h.total_price PF.inf)) =
        [pfGet h1.total_price PF.inf, pfGet h1.total_price PF.inf] := by
      simp [hp]
    have hmr : ([h1, h2].map (fun h => pfGet h.rating (PF.fin 0))) =
        [pfGet h1.rating (PF.fin 0), pfGet h1.rating (PF.fin 0)] := by
      simp [hr]
    have hscores : hotelScores cw tw [h1, h2] =
        [PF.fin (cw * 1 + tw * 1), PF.fin (cw * 1 + tw * 1)] := by
      unfold hotelScores
      dsimp only
      rw [hmc, hmr, normalize_cost_pair_self _ hcn, normalize_rating_pair_self _ hrn]
      rfl
    have hargmax : npArgmax (hotelScores cw tw [h1, h2]) = 0 := by
      rw [hscores]
      simp [npArgmax, argmaxGo, PF.lt]
    refine ⟨hargmax, ?_⟩
    unfold select_best_hotel
    rw [if_neg (by simp), hargmax]
    rfl

/-- Witness for `select_best_first_argmax` at concrete one-element candidate
lists and a concrete hotel tie. -/
theorem select_best_first_argmax_witness :
    (([{ total_price := some 1, duration_hours := some 2 }] : List Flight) ≠ [] ∧
      (∀ f ∈ ([{ total_price := some 1, duration_hours := some 2 }] : List Flight),
        f.total_price ≠ none ∧ f.duration_hours ≠ none) ∧
      ([{ total_price := some 3, rating := some 4 }] : List Hotel) ≠ [] ∧
      (∀ h ∈ ([{ total_price := some 3, rating := some 4 }] : List Hotel),
        h.total_price ≠ none)) ∧
    (∃ i : Nat,
      i < ([{ total_price := some 1, duration_hours := some 2 }] : List Flight).length ∧
      select_best_flight 0.6 0.4 [{ total_price := some 1, duration_hours := some 2 }] =
        ([{ total_price := some 1, duration_hours := some 2 }] : List Flight)[i]? ∧
      (∀ j : Nat,
        j < ([{ total_price := some 1, duration_hours := some 2 }] : List Flight).length →
        PF.le ((flightScores 0.6 0.4
            [{ total_price := some 1, duration_hours := some 2 }]).getD j PF.nan)
          ((flightScores 0.6 0.4
            [{ total_price := some 1, duration_hours := some 2 }]).getD i PF.nan) = true) ∧
      (∀ j : Nat, j < i →
        PF.lt ((flightScores 0.6 0.4
            [{ total_price := some 1, duration_hours := some 2 }]).getD j PF.nan)
          ((flightScores 0.6 0.4
            [{ total_price := some 1, duration_hours := some 2 }]).getD i PF.nan) = true)) ∧
    (∃ i : Nat,
      i < ([{ total_price := some 3, rating := some 4 }] : List Hotel).length ∧
      select_best_hotel 0.6 0.4 [{ total_price := some 3, rating := some 4 }] =
        ([{ total_price := some 3, rating := some 4 }] : List Hotel)[i]? ∧
      (∀ j : Nat, j < ([{ total_price := some 3, rating := some 4 }] : List Hotel).length →
        PF.le ((hotelScores 0.6 0.4 [{ total_price := some 3, rating := some 4 }]).getD j PF.nan)
          ((hotelScores 0.6 0.4
            [{ total_price := some 3, rating := some 4 }]).getD i PF.nan) = true) ∧
      (∀ j : Nat, j < i →
        PF.lt ((hotelScores 0.6 0.4 [{ total_price := some 3, rating := some 4 }]).getD j PF.nan)
          ((hotelScores 0.6 0.4
            [{ total_price := some 3, rating := some 4 }]).getD i PF.nan) = true)) ∧
    (npArgmax (hotelScores 0.6 0.4 [{ total_price := some 5, rating := some 5 },
        { total_price := some 5, rating := some 5 }]) = 0 ∧
      select_best_hotel 0.6 0.4 [{ total_price := some 5, rating := some 5 },
        { total_price := some 5, rating := some 5 }] =
        some { total_price := some 5, rating := some 5 }) := by
  refine ⟨⟨by simp, by simp, by simp, by simp⟩, ?_, ?_, ?_⟩
  · exact (select_best_first_argmax 0.6 0.4).1 _ (by simp) (by simp)
  · exact (select_best_first_argmax 0.6 0.4).2.1 _ (by simp) (by simp)
  · exact (select_best_first_argmax 0.6 0.4).2.2 _ _ rfl rfl

theorem PF.eq_of_beq : ∀ {x y : PF}, PF.beq x y = true → x = y := by
  intro x y h
  cases x <;> cases y <;> simp_all [PF.beq]

theorem getD_map_of_lt {α : Type} (f : α → PF) (l : List α) (j : Nat)
    (hj : j < l.length) :
    (l.map f).getD j PF.nan = f (l.get ⟨j, hj⟩) := by
  rw [List.getD_eq_getElem?_getD, List.getElem?_map, List.getElem?_eq_getElem hj]
  simp

theorem normalize_cost_eq_map (l : List PF) (hl : l ≠ []) :
    normalize_cost l = l.map (normCostF l) := by
  unfold normalize_cost normCostF
  rw [if_neg (by simpa using hl)]
  dsimp only
  by_cases h : PF.beq (npMax l) (npMin l) = true
  · rw [if_pos h]
    apply List.map_congr_left
    intro c _
    rw [if_pos h]
  · rw [if_neg h]
    apply List.map_congr_left
    intro c _
    rw [if_neg h]

/-- C10: the indirect score lookup through `list.index` (first occurrence of
the value) equals the direct per-position weighted combination of the
normalized arrays — even in the presence of duplicates — because the
normalization maps equal entries to equal scores.  (The hypothesis excludes
`nan` entries, which `dict.get` defaulting can never produce.) -/
theorem calculate_score_index_free (cw tw : ℚ) (costs times : List PF)
    (hc : ∀ x ∈ costs, x ≠ PF.nan) (ht : ∀ x ∈ times, x ≠ PF.nan)
    (i : Nat) (ci ti : PF) (hci : costs[i]? = some ci) (hti : times[i]? = some ti) :
    calculate_score cw tw ci ti costs times =
      PF.add (PF.mul (PF.fin cw) ((normalize_cost costs).getD i PF.nan))
        (PF.mul (PF.fin tw) ((normalize_time times).getD i PF.nan)) := by
  obtain ⟨hic, hgc⟩ := List.getElem?_eq_some_iff.mp hci
  obtain ⟨hit, hgt⟩ := List.getElem?_eq_some_iff.mp hti
  have hcimem : ci ∈ costs := hgc ▸ List.getElem_mem hic
  have htimem : ti ∈ times := hgt ▸ List.getElem_mem hit
  have hne : costs ≠ [] := by
    intro h; subst h; simp at hci
  have hnet : times ≠ [] := by
    intro h; subst h; simp at hti
  have hjc : costs.findIdx (fun x => PF.beq x ci) < costs.length :=
    List.findIdx_lt_length_of_exists ⟨ci, hcimem, PF.beq_self (hc ci hcimem)⟩
  have hjt : times.findIdx (fun x => PF.beq x ti) < times.length :=
    List.findIdx_lt_length_of_exists ⟨ti, htimem, PF.beq_self (ht ti htimem)⟩
  have hfc : costs.get ⟨costs.findIdx (fun x => PF.beq x ci), hjc⟩ = ci :=
    PF.eq_of_beq (List.findIdx_getElem (w := hjc))
  have hft : times.get ⟨times.findIdx (fun x => PF.beq x ti), hjt⟩ = ti :=
    PF.eq_of_beq (List.findIdx_getElem (w := hjt))
  unfold calculate_score pyIndex
  dsimp only
  rw [normalize_time_eq_normalize_cost, normalize_cost_eq_map costs hne,
    normalize_cost_eq_map times hnet]
  rw [getD_map_of_lt _ _ _ hjc, getD_map_of_lt _ _ _ hjt,
    getD_map_of_lt _ _ _ hic, getD_map_of_lt _ _ _ hit]
  have hgc' : costs.get ⟨i, hic⟩ = ci := hgc
  have hgt' : times.get ⟨i, hit⟩ = ti := hgt
  rw [hfc, hft, hgc', hgt']

/-- Witness for `calculate_score_index_free` on a list with a duplicated cost
value, looked up at the second occurrence. -/
theorem calculate_score_index_free_witness :
    ((∀ x ∈ [PF.fin 1, PF.fin 1, PF.fin 5], x ≠ PF.nan) ∧
      (∀ x ∈ [PF.fin 2, PF.fin 3, PF.fin 4], x ≠ PF.nan) ∧
      ([PF.fin 1, PF.fin 1, PF.fin 5] : List PF)[1]? = some (PF.fin 1) ∧
      ([PF.fin 2, PF.fin 3, PF.fin 4] : List PF)[1]? = some (PF.fin 3)) ∧
    calculate_score 0.6 0.4 (PF.fin 1) (PF.fin 3)
        [PF.fin 1, PF.fin 1, PF.fin 5] [PF.fin 2, PF.fin 3, PF.fin 4] =
      PF.add
        (PF.mul (PF.fin 0.6)
          ((normalize_cost [PF.fin 1, PF.fin 1, PF.fin 5]).getD 1 PF.nan))
        (PF.mul (PF.fin 0.4)
          ((normalize_time [PF.fin 2, PF.fin 3, PF.fin 4]).getD 1 PF.nan)) :=
  ⟨⟨by simp, by simp, by simp, by simp⟩,
    calculate_score_index_free 0.6 0.4 _ _ (by simp) (by simp) 1 _ _ (by simp) (by simp)⟩

theorem activitiesWithValue_eq (acts : List Activity) :
    activitiesWithValue acts =
      (acts.filter (fun a =>
        PF.lt (PF.fin 0) (pfGet a.price_per_person PF.inf) &&
        PF.lt (PF.fin 0) (pfGet a.duration_hours (PF.fin 0)))).map
        (fun a => (PF.div (PF.mul (pfGet a.rating (PF.fin 0)) (PF.fin 2))
          (PF.div (pfGet a.price_per_person PF.inf) (PF.fin 50)), a)) := by
  induction acts with
  | nil => rfl
  | cons a as ih =>
      simp only [activitiesWithValue] at ih ⊢
      by_cases hP : (PF.lt (PF.fin 0) (pfGet a.price_per_person PF.inf) = true ∧
          PF.lt (PF.fin 0) (pfGet a.duration_hours (PF.fin 0)) = true)
      · rw [List.filterMap_cons, if_pos hP]
        rw [List.filter_cons_of_pos (by simp only [Bool.and_eq_true]; exact hP),
          List.map_cons, ih]
      · rw [List.filterMap_cons, if_neg hP]
        rw [List.filter_cons_of_neg (by simp only [Bool.and_eq_true]; exact hP), ih]

theorem greedyGo_eq_foldl (K : Nat) (H : ℚ) :
    ∀ (ps : List (PF × Activity)) (sel : List Activity) (tot : ℚ),
      greedyGo K H ps sel tot =
        (ps.foldl (fun (acc : List Activity × ℚ) p =>
          let d := (p.2.duration_hours).getD 0
          if acc.1.length + 1 ≤ K ∧ acc.2 + d ≤ H then (acc.1 ++ [p.2], acc.2 + d)
          else acc) (sel, tot)).1 := by
  intro ps
  induction ps with
  | nil => intro sel tot; rfl
  | cons p ps ih =>
      intro sel tot
      obtain ⟨v, a⟩ := p
      simp only [greedyGo, List.foldl_cons]
      by_cases hcond : (sel.length < K ∧ tot + (a.duration_hours).getD 0 ≤ H)
      · rw [if_pos hcond, if_pos ⟨Nat.succ_le_of_lt hcond.1, hcond.2⟩, ih]
      · rw [if_neg hcond,
          if_neg (fun hc => hcond ⟨Nat.lt_of_succ_le hc.1, hc.2⟩), ih]

theorem mem_insertDesc {x y : PF × Activity} {l : List (PF × Activity)} :
    y ∈ insertDesc x l ↔ y = x ∨ y ∈ l := by
  induction l with
  | nil => simp [insertDesc]
  | cons z zs ih =>
      unfold insertDesc
      by_cases h : PF.lt x.1 z.1 = true
      · rw [if_pos h]
        simp only [List.mem_cons, ih]
        tauto
      · rw [if_neg h]
        simp only [List.mem_cons]

theorem mem_sortDescKey {y : PF × Activity} {l : List (PF × Activity)} :
    y ∈ sortDescKey l ↔ y ∈ l := by
  induction l with
  | nil => simp [sortDescKey]
  | cons x xs ih => simp [sortDescKey, mem_insertDesc, ih]

theorem greedyGo_mem (K : Nat) (H : ℚ) :
    ∀ (ps : List (PF × Activity)) (sel : List Activity) (tot : ℚ)
      (a : Activity), a ∈ greedyGo K H ps sel tot →
      a ∈ sel ∨ ∃ p ∈ ps, a = p.2 := by
  intro ps
  induction ps with
  | nil => intro sel tot a ha; exact Or.inl ha
  | cons p ps ih =>
      intro sel tot a ha
      obtain ⟨v, b⟩ := p
      simp only [greedyGo] at ha
      by_cases hcond : (sel.length < K ∧ tot + (b.duration_hours).getD 0 ≤ H)
      · rw [if_pos hcond] at ha
        rcases ih _ _ _ ha with h | ⟨q, hq, rfl⟩
        · rcases List.mem_append.mp h with h' | h'
          · exact Or.inl h'
          · exact Or.inr ⟨(v, b), List.mem_cons_self _ _, by simpa using h'⟩
        · exact Or.inr ⟨q, List.mem_cons_of_mem _ hq, rfl⟩
      · rw [if_neg hcond] at ha
        rcases ih _ _ _ ha with h | ⟨q, hq, rfl⟩
        · exact Or.inl h
        · exact Or.inr ⟨q, List.mem_cons_of_mem _ hq, rfl⟩

theorem mem_activitiesWithValue {p : PF × Activity} {acts : List Activity}
    (hp : p ∈ activitiesWithValue acts) : p.2 ∈ acts := by
  unfold activitiesWithValue at hp
  rcases List.mem_filterMap.mp hp with ⟨a, ha, hfa⟩
  by_cases hP : (PF.lt (PF.fin 0) (pfGet a.price_per_person PF.inf) = true ∧
      PF.lt (PF.fin 0) (pfGet a.duration_hours (PF.fin 0)) = true)
  · rw [if_pos hP] at hfa
    cases hfa
    exact ha
  · rw [if_neg hP] at hfa
    exact Option.noConfusion hfa

theorem select_activities_subset {a : Activity} {acts : List Activity}
    {K : Nat} {H : ℚ} (ha : a ∈ select_activities acts K H) : a ∈ acts := by
  unfold select_activities at ha
  by_cases hE : acts.isEmpty
  · rw [if_pos hE] at ha
    cases ha
  · rw [if_neg hE] at ha
    rcases greedyGo_mem K H _ _ _ _ ha with h | ⟨p, hp, rfl⟩
    · cases h
    · exact mem_activitiesWithValue (mem_sortDescKey.mp hp)

theorem greedyGo_bound_three :
    ∀ (ps : List (PF × Activity)) (sel : List Activity) (tot : ℚ),
      (∀ p ∈ ps, (p.2.duration_hours).getD 0 = 3) →
      tot = 3 * sel.length → tot ≤ 8 →
      (greedyGo 3 8 ps sel tot).length ≤ 2 := by
  intro ps
  induction ps with
  | nil =>
      intro sel tot _ hinv hle
      simp only [greedyGo]
      by_contra hcon
      push_neg at hcon
      have h3 : (3 : ℚ) ≤ (sel.length : ℚ) := by exact_mod_cast hcon
      rw [hinv] at hle
      linarith
  | cons p ps ih =>
      intro sel tot hdur hinv hle
      obtain ⟨v, a⟩ := p
      have hd : (a.duration_hours).getD 0 = 3 :=
        hdur (v, a) (List.mem_cons_self _ _)
      simp only [greedyGo, hd]
      by_cases hcond : (sel.length < 3 ∧ tot + 3 ≤ 8)
      · rw [if_pos hcond]
        apply ih _ _ (fun q hq => hdur q (List.mem_cons_of_mem _ hq))
        · rw [hinv]
          simp only [List.length_append, List.length_cons, List.length_nil]
          push_cast
          ring
        · exact hcond.2
      · rw [if_neg hcond]
        exact ih _ _ (fun q hq => hdur q (List.mem_cons_of_mem _ hq)) hinv hle

/-- C2: `select_activities` returns exactly the result of the reference
algorithm (filter strict-positive price and duration under the `get`
defaults, value by `(rating * 2) / (price / 50)`, stable descending sort,
single greedy pass keeping count ≤ K and duration sum ≤ H, in acceptance
order); and for five activities of three hours each with the default caps
`K = 3, H = 8`, at most two are selected. -/
theorem select_activities_matches_reference :
    (∀ (acts : List Activity) (K : Nat) (H : ℚ),
      select_activities acts K H = refSelectActivities acts K H) ∧
    (∀ acts : List Activity, acts.length = 5 →
      (∀ a ∈ acts, a.duration_hours = some 3) →
      (select_activities acts 3 8).length ≤ 2) := by
  constructor
  · intro acts K H
    unfold select_activities refSelectActivities
    by_cases hE : acts.isEmpty
    · rw [if_pos hE]
      have h : acts = [] := List.isEmpty_iff.mp hE
      subst h
      rfl
    · rw [if_neg hE, greedyGo_eq_foldl, activitiesWithValue_eq]
  · intro acts _ hdur
    unfold select_activities
    by_cases hE : acts.isEmpty
    · rw [if_pos hE]
      simp
    · rw [if_neg hE]
      apply greedyGo_bound_three
      · intro p hp
        have hmem : p.2 ∈ acts := mem_activitiesWithValue (mem_sortDescKey.mp hp)
        rw [hdur p.2 hmem]
        rfl
      · simp
      · norm_num

/-- Witness for `select_activities_matches_reference`: a one-element list for
the equivalence and five three-hour activities for the cap bound. -/
theorem select_activities_matches_reference_witness :
    (fiveThreeHourActs.length = 5 ∧
      (∀ a ∈ fiveThreeHourActs, a.duration_hours = some 3)) ∧
    select_activities [threeHourAct 10 4 20] 3 8 =
      refSelectActivities [threeHourAct 10 4 20] 3 8 ∧
    (select_activities fiveThreeHourActs 3 8).length ≤ 2 :=
  ⟨⟨rfl, by simp [fiveThreeHourActs, threeHourAct]⟩,
    select_activities_matches_reference.1 _ 3 8,
    select_activities_matches_reference.2 _ rfl
      (by simp [fiveThreeHourActs, threeHourAct])⟩

theorem ciLoop_days (acts : List Activity) :
    ∀ (fuel : Nat) (cur : Int) (days : List DayPlan) (c t : ℚ),
      (ciLoop acts fuel cur days c t).1 =
        days ++ (List.range fuel).map
          (fun k : Nat => dayPlanFor acts (cur + (k : Int))) := by
  intro fuel
  induction fuel with
  | zero => intro cur days c t; simp [ciLoop]
  | succ n ih =>
      intro cur days c t
      simp only [ciLoop]
      rw [ih, List.range_succ_eq_map, List.map_cons, List.map_map,
        List.append_assoc, List.singleton_append]
      congr 2
      · exact congrArg (dayPlanFor acts) (by omega)
      · apply List.map_congr_left
        intro k _
        simp only [Function.comp]
        exact congrArg (dayPlanFor acts) (by omega)

theorem ciLoop_totals (acts : List Activity) :
    ∀ (fuel : Nat) (cur : Int) (days : List DayPlan) (c t : ℚ),
      (ciLoop acts fuel cur days c t).2.1 =
        c + ((List.range fuel).map
          (fun k : Nat => (dayPlanFor acts (cur + (k : Int))).total_cost)).sum ∧
      (ciLoop acts fuel cur days c t).2.2 =
        t + ((List.range fuel).map
          (fun k : Nat => (dayPlanFor acts (cur + (k : Int))).total_time_hours)).sum := by
  intro fuel
  induction fuel with
  | zero => intro cur days c t; simp [ciLoop]
  | succ n ih =>
      intro cur days c t
      simp only [ciLoop]
      obtain ⟨ihc, iht⟩ := ih (cur + 1) (days ++ [dayPlanFor acts cur])
        (c + (dayPlanFor acts cur).total_cost)
        (t + (dayPlanFor acts cur).total_time_hours)
      constructor
      · rw [ihc, List.range_succ_eq_map, List.map_cons, List.map_map, List.sum_cons]
        have hmap : (List.range n).map
              ((fun k : Nat => (dayPlanFor acts (cur + (k : Int))).total_cost) ∘ Nat.succ) =
            (List.range n).map
              (fun k : Nat => (dayPlanFor acts (cur + 1 + (k : Int))).total_cost) := by
          apply List.map_congr_left
          intro k _
          simp only [Function.comp]
          exact congrArg (fun d => (dayPlanFor acts d).total_cost) (by omega)
        rw [hmap]
        have hz : (dayPlanFor acts (cur + ((0 : Nat) : Int))).total_cost =
            (dayPlanFor acts cur).total_cost :=
          congrArg (fun d => (dayPlanFor acts d).total_cost) (by omega)
        rw [hz]
        ring
      · rw [iht, List.range_succ_eq_map, List.map_cons, List.map_map, List.sum_cons]
        have hmap : (List.range n).map
              ((fun k : Nat =>
                (dayPlanFor acts (cur + (k : Int))).total_time_hours) ∘ Nat.succ) =
            (List.range n).map
              (fun k : Nat => (dayPlanFor acts (cur + 1 + (k : Int))).total_time_hours) := by
          apply List.map_congr_left
          intro k _
          simp only [Function.comp]
          exact congrArg (fun d => (dayPlanFor acts d).total_time_hours) (by omega)
        rw [hmap]
        have hz : (dayPlanFor acts (cur + ((0 : Nat) : Int))).total_time_hours =
            (dayPlanFor acts cur).total_time_hours :=
          congrArg (fun d => (dayPlanFor acts d).total_time_hours) (by omega)
        rw [hz]
        ring


/-- C7: the itinerary summary satisfies `total_cost` = flight price (0 when no
flight, via the `get(..., 0)` default) + hotel price (0 when no hotel) + the
sum of the day-plan costs; `total_time_hours` = flight duration + the sum of
the day-plan durations, with the hotel contributing nothing to time; and
`duration_days` = `return_date - departure_date` in whole days. -/
theorem create_itinerary_totals (cw tw : ℚ) (flights : List Flight)
    (hotels : List Hotel) (activities : List Activity) (dep ret : Int) :
    (create_itinerary cw tw flights hotels activities dep ret).summary.total_cost =
      (create_itinerary cw tw flights hotels activities dep ret).flight.elim 0
        (fun f => f.total_price.getD 0) +
      (create_itinerary cw tw flights hotels activities dep ret).hotel.elim 0
        (fun h => h.total_price.getD 0) +
      ((create_itinerary cw tw flights hotels activities dep ret).days.map
        DayPlan.total_cost).sum ∧
    (create_itinerary cw tw flights hotels activities dep ret).summary.total_time_hours =
      (create_itinerary cw tw flights hotels activities dep ret).flight.elim 0
        (fun f => f.duration_hours.getD 0) +
      ((create_itinerary cw tw flights hotels activities dep ret).days.map
        DayPlan.total_time_hours).sum ∧
    (create_itinerary cw tw flights hotels activities dep ret).summary.duration_days =
      ret - dep := by
  unfold create_itinerary
  dsimp only
  refine ⟨?_, ?_, rfl⟩
  · rw [(ciLoop_totals activities _ _ _ _ _).1, ciLoop_days, List.nil_append,
      List.map_map]
    cases hF : select_best_flight cw tw flights <;>
      cases hH : select_best_hotel cw tw hotels <;>
        simp [Function.comp_def]
  · rw [(ciLoop_totals activities _ _ _ _ _).2, ciLoop_days, List.nil_append,
      List.map_map]
    cases hF : select_best_flight cw tw flights <;>
      simp [Function.comp_def]

/-- C6: the days sequence has exactly one `DayPlan` per date strictly between
departure and return (first `departure + 1`, increasing by one day per
position, so the last is `return_date - 1`); each day is built by running the
activity selector only on activities whose `date` equals that day's date
(activities dated elsewhere are silently ignored, and every selected activity
carries exactly the day's date); and when `return_date ≤ departure_date + 1`
the days sequence is empty, with no error anywhere. -/
theorem create_itinerary_days_window (cw tw : ℚ) (flights : List Flight)
    (hotels : List Hotel) (activities : List Activity) (dep ret : Int) :
    (create_itinerary cw tw flights hotels activities dep ret).days.length =
      (ret - dep - 1).toNat ∧
    (∀ (i : Nat) (dp : DayPlan),
      (create_itinerary cw tw flights hotels activities dep ret).days[i]? = some dp →
      dp.date = dep + 1 + (i : Int) ∧
      dp.activities = select_activities
        (activities.filter (fun a => a.date == some (dep + 1 + (i : Int)))) 3 8 ∧
      (∀ a ∈ dp.activities, a ∈ activities ∧ a.date = some dp.date)) ∧
    (ret ≤ dep + 1 →
      (create_itinerary cw tw flights hotels activities dep ret).days = []) := by
  have hdays : (create_itinerary cw tw flights hotels activities dep ret).days =
      (List.range (ret - (dep + 1)).toNat).map
        (fun k : Nat => dayPlanFor activities (dep + 1 + (k : Int))) := by
    unfold create_itinerary
    dsimp only
    rw [ciLoop_days, List.nil_append]
  refine ⟨?_, ?_, ?_⟩
  · rw [hdays]
    simp only [List.length_map, List.length_range]
    congr 1
    omega
  · intro i dp hdp
    rw [hdays, List.getElem?_map] at hdp
    by_cases hi : i < (ret - (dep + 1)).toNat
    · rw [List.getElem?_range hi] at hdp
      have hdp' : dayPlanFor activities (dep + 1 + (i : Int)) = dp := by
        simpa using hdp
      subst hdp'
      refine ⟨rfl, rfl, ?_⟩
      intro a ha
      have hsub := select_activities_subset ha
      have hmf := List.mem_filter.mp hsub
      refine ⟨hmf.1, ?_⟩
      have hbq := hmf.2
      rw [beq_iff_eq] at hbq
      exact hbq
    · rw [List.getElem?_eq_none_iff.mpr (by simpa using Nat.le_of_not_lt hi)] at hdp
      exact Option.noConfusion hdp
  · intro hret
    rw [hdays]
    have h0 : (ret - (dep + 1)).toNat = 0 := by omega
    rw [h0]
    rfl

/-- Witness for `create_itinerary_days_window` at a concrete three-day trip
window containing one activity. -/
theorem create_itinerary_days_window_witness :
    (create_itinerary 0.6 0.4 [] [] [threeHourAct 10 4 20] 0 3).days.length =
      ((3 : Int) - 0 - 1).toNat ∧
    (∀ (i : Nat) (dp : DayPlan),
      (create_itinerary 0.6 0.4 [] [] [threeHourAct 10 4 20] 0 3).days[i]? = some dp →
      dp.date = 0 + 1 + (i : Int) ∧
      dp.activities = select_activities
        ([threeHourAct 10 4 20].filter
          (fun a => a.date == some (0 + 1 + (i : Int)))) 3 8 ∧
      (∀ a ∈ dp.activities, a ∈ [threeHourAct 10 4 20] ∧ a.date = some dp.date)) ∧
    ((3 : Int) ≤ 0 + 1 →
      (create_itinerary 0.6 0.4 [] [] [threeHourAct 10 4 20] 0 3).days = []) :=
  create_itinerary_days_window 0.6 0.4 [] [] [threeHourAct 10 4 20] 0 3
